import Mathlib

/-!
Verification of the chunking core of the freeread repository.

The repository's reusable core is two JavaScript text-splitting functions:

* `splitTextAtBoundaries(text, maxChars)` in `openai_fm_automation.js`,
  which cuts at paragraph (`"\n\n"`), sentence (`". "`, `"! "`, `"? "`),
  word (ASCII space) boundaries, or force-splits at `maxChars`;
* `splitText(text, maxChars)` in `text_splitter.js`, which only uses the
  word-boundary and forced-split rules.

Strings are modelled as `List Char`.  JavaScript `String.prototype.trim`
is modelled over the ASCII whitespace characters (the inputs considered
here are ASCII).  The possibly non-terminating `while` loop is modelled
with explicit fuel: `none` means the fuel was exhausted, and for
`maxChars ≥ 1` we prove that fuel `text.length` always suffices, so the
model is total exactly where the JavaScript loop terminates.
-/

set_option maxRecDepth 10000

abbrev Str := List Char

/-- Whitespace as used by the model of `trim` (ASCII white-space set). -/
def isWS (c : Char) : Bool :=
  c = ' ' || c = '\t' || c = '\n' || c = '\r' || c = '\x0b' || c = '\x0c'

/-- Model of JavaScript `s.trim()` : remove leading and trailing whitespace. -/
def trim (s : Str) : Str :=
  (((s.dropWhile isWS).reverse.dropWhile isWS)).reverse

/-- A string consisting only of whitespace characters. -/
def wsOnly (s : Str) : Bool := s.all isWS

/-- `startsWith pat s` : `pat` occurs at the very beginning of `s`. -/
def startsWith : Str → Str → Bool
  | [], _ => true
  | _ :: _, [] => false
  | p :: ps, c :: cs => p = c && startsWith ps cs

/-- `occursIn pat s` : `pat` occurs contiguously somewhere in `s`. -/
def occursIn (pat s : Str) : Bool :=
  (List.range (s.length + 1)).any fun i => startsWith pat (s.drop i)

/-- Backward search: last index `< n` at which `pat` occurs in `s`. -/
def lastMatchBelow (pat s : Str) : Nat → Option Nat
  | 0 => none
  | n + 1 => if startsWith pat (s.drop n) then some n else lastMatchBelow pat s n

/-- Model of JavaScript `s.lastIndexOf(pat)` (with `none` for `-1`). -/
def lastIndexOf (pat s : Str) : Option Nat := lastMatchBelow pat s s.length

/-- Maximum of two optional indices; models `Math.max` over `-1`-or-index. -/
def optMax2 : Option Nat → Option Nat → Option Nat
  | none, b => b
  | some a, none => some a
  | some a, some b => some (Nat.max a b)

def optMax3 (a b c : Option Nat) : Option Nat := optMax2 (optMax2 a b) c

/-- Model of the backward space scan
`while (chunkEnd > 0 && remainingText[chunkEnd] !== ' ') chunkEnd--;`
starting from the second argument.  Returns `0` when no space was found at
positions `1..start` (position `0` is never examined by the loop). -/
def lastSpaceLE (r : Str) : Nat → Nat
  | 0 => 0
  | k + 1 => if r.getD (k + 1) '\x00' = ' ' then k + 1 else lastSpaceLE r k

/-- The cut position chosen by one iteration of the `splitTextAtBoundaries`
loop on remaining text `rem` (only used when `maxChars < rem.length`):
paragraph break, then sentence end, then backward space scan, then forced
split at `maxChars`. -/
def cutPoint (maxChars : Nat) (rem : Str) : Nat :=
  match lastIndexOf ['\n', '\n'] (rem.take maxChars) with
  | some p => p + 2
  | none =>
    match optMax3 (lastIndexOf ['.', ' '] (rem.take maxChars))
        (lastIndexOf ['!', ' '] (rem.take maxChars))
        (lastIndexOf ['?', ' '] (rem.take maxChars)) with
    | some s => s + 2
    | none =>
      match lastSpaceLE rem maxChars with
      | 0 => maxChars
      | k + 1 => k + 1

/-- The cut position chosen by one iteration of the `splitText` loop of
`text_splitter.js`: backward space scan, then forced split. -/
def wordCut (maxChars : Nat) (rem : Str) : Nat :=
  match lastSpaceLE rem maxChars with
  | 0 => maxChars
  | k + 1 => k + 1

/-- Fuelled model of the `while (remainingText.length > 0)` loop of
`splitTextAtBoundaries`.  `none` models fuel exhaustion (the JavaScript
loop not having terminated within `fuel` iterations). -/
def splitGo (maxChars : Nat) : Nat → Str → Option (List Str)
  | 0, rem => if rem.length = 0 then some [] else none
  | fuel + 1, rem =>
    if rem.length = 0 then some []
    else if rem.length ≤ maxChars then some [rem]
    else
      match splitGo maxChars fuel (trim (rem.drop (cutPoint maxChars rem))) with
      | some cs => some (trim (rem.take (cutPoint maxChars rem)) :: cs)
      | none => none

/-- Fuelled model of the loop of `splitText` from `text_splitter.js`. -/
def splitGoW (maxChars : Nat) : Nat → Str → Option (List Str)
  | 0, rem => if rem.length = 0 then some [] else none
  | fuel + 1, rem =>
    if rem.length = 0 then some []
    else if rem.length ≤ maxChars then some [rem]
    else
      match splitGoW maxChars fuel (trim (rem.drop (wordCut maxChars rem))) with
      | some cs => some (trim (rem.take (wordCut maxChars rem)) :: cs)
      | none => none

/-- Model of `splitTextAtBoundaries(text, maxChars)` of
`openai_fm_automation.js`.  The short input case returns `[text]`
unchanged; otherwise the loop runs with fuel `text.length`, which is
proved sufficient whenever `maxChars ≥ 1`. -/
def splitTextAtBoundaries (text : Str) (maxChars : Nat) : Option (List Str) :=
  if text.length ≤ maxChars then some [text]
  else splitGo maxChars text.length text

/-- Model of `splitText(text, maxChars)` of `text_splitter.js`. -/
def splitText (text : Str) (maxChars : Nat) : Option (List Str) :=
  if text.length ≤ maxChars then some [text]
  else splitGoW maxChars text.length text

/-- The cut trace of the `splitTextAtBoundaries` loop: the list of pairs
(remaining text seen by an iteration that cuts, cut position chosen). -/
def splitGoCuts (maxChars : Nat) : Nat → Str → List (Str × Nat)
  | 0, _ => []
  | fuel + 1, rem =>
    if rem.length = 0 then []
    else if rem.length ≤ maxChars then []
    else
      (rem, cutPoint maxChars rem) ::
        splitGoCuts maxChars fuel (trim (rem.drop (cutPoint maxChars rem)))

/-- The cut trace of `splitTextAtBoundaries text maxChars`. -/
def splitCuts (text : Str) (maxChars : Nat) : List (Str × Nat) :=
  if text.length ≤ maxChars then [] else splitGoCuts maxChars text.length text

/-- Length of the maximal whitespace-free run surrounding the boundary
between positions `i - 1` and `i` of `r`. -/
def runAround (r : Str) (i : Nat) : Nat :=
  ((r.take i).reverse.takeWhile (fun c => !isWS c)).length +
    ((r.drop i).takeWhile (fun c => !isWS c)).length

/-- Join chunks, inserting the given separator strings between them. -/
def interleave : List Str → List Str → Str
  | [], _ => []
  | [c], _ => c
  | c :: c2 :: cs, [] => c ++ interleave (c2 :: cs) []
  | c :: c2 :: cs, w :: ws => c ++ w ++ interleave (c2 :: cs) ws

/-- Spec-side: `pat` occurs at index `i` within the first `bound`
characters of `s`. -/
def matchAtIn (pat s : Str) (bound i : Nat) : Bool :=
  startsWith pat ((s.take bound).drop i)

/-- Spec-side: the last occurrence of `pat` within the first `bound`
characters of `s`, as the spec words it. -/
def specLastIn (pat s : Str) (bound : Nat) : Option Nat :=
  if (List.range bound).any (fun i => matchAtIn pat s bound i) then
    some (Nat.findGreatest (fun i => matchAtIn pat s bound i = true) bound)
  else none

/-- Spec-side: one of the three sentence endings occurs at index `i`
within the first `bound` characters of `s`. -/
def sentenceAt (s : Str) (bound i : Nat) : Bool :=
  matchAtIn ['.', ' '] s bound i || matchAtIn ['!', ' '] s bound i ||
    matchAtIn ['?', ' '] s bound i

/-- Spec-side: the latest sentence-ending occurrence within the first
`bound` characters of `s`. -/
def specLastSentence (s : Str) (bound : Nat) : Option Nat :=
  if (List.range bound).any (fun i => sentenceAt s bound i) then
    some (Nat.findGreatest (fun i => sentenceAt s bound i = true) bound)
  else none

/-- Spec-side: the nearest space scanning backward from position `start`,
accepting a space only at a position `≥ lo`. -/
def specSpaceScanFrom (r : Str) (start lo : Nat) : Option Nat :=
  if (List.range (start + 1)).any (fun k => lo ≤ k && r.getD k '\x00' = ' ') then
    some (Nat.findGreatest (fun k => (decide (lo ≤ k) && r.getD k '\x00' = ' ') = true) start)
  else none

/-- Spec-side cut-selection rule, parametrised by the lowest position the
backward space scan may accept. -/
def specCutWith (lo maxChars : Nat) (rem : Str) : Nat :=
  match specLastIn ['\n', '\n'] rem maxChars with
  | some p => p + 2
  | none =>
    match specLastSentence rem maxChars with
    | some s => s + 2
    | none =>
      match specSpaceScanFrom rem maxChars lo with
      | some k => k
      | none => maxChars

/-- The cut-selection rule exactly as the claim words it: the backward
space scan may accept a space at any position, including position `0`. -/
def specCutLiteral (maxChars : Nat) (rem : Str) : Nat := specCutWith 0 maxChars rem

/-- The amended cut-selection rule: the backward space scan accepts a
space only at positions `1..maxChars`, matching the loop guard
`chunkEnd > 0` of the source. -/
def specCutAmended (maxChars : Nat) (rem : Str) : Nat := specCutWith 1 maxChars rem

/-! ### Basic facts about `trim` and whitespace -/

theorem takeWhile_all_mem (p : Char → Bool) (l : Str) :
    ∀ c ∈ l.takeWhile p, p c = true := by
  intro c hc
  exact List.mem_takeWhile_imp hc

theorem wsOnly_append (a b : Str) :
    wsOnly (a ++ b) = (wsOnly a && wsOnly b) := by
  simp [wsOnly, List.all_append]

theorem wsOnly_reverse (a : Str) : wsOnly a.reverse = wsOnly a := by
  simp [wsOnly, List.all_eq_true, List.mem_reverse]

theorem dropWhile_eq_drop (p : Char → Bool) (l : Str) :
    l.dropWhile p = l.drop (l.takeWhile p).length := by
  induction l with
  | nil => rfl
  | cons c t ih =>
    by_cases h : p c
    · simp [List.dropWhile_cons, List.takeWhile_cons, h, ih]
    · simp [List.dropWhile_cons, List.takeWhile_cons, h]

theorem trim_eq_drop_take (s : Str) :
    ∃ a b, trim s = (s.drop a).take b := by
  have h1 : s.dropWhile isWS = s.drop (s.takeWhile isWS).length :=
    dropWhile_eq_drop isWS s
  set d := s.dropWhile isWS with hd
  have h2 : d.reverse.dropWhile isWS =
      d.reverse.drop (d.reverse.takeWhile isWS).length :=
    dropWhile_eq_drop isWS d.reverse
  refine ⟨(s.takeWhile isWS).length,
    d.length - (d.reverse.takeWhile isWS).length, ?_⟩
  show (d.reverse.dropWhile isWS).reverse = _
  rw [h2, List.drop_reverse, List.reverse_reverse, ← h1]

theorem trim_length_le (s : Str) : (trim s).length ≤ s.length := by
  obtain ⟨a, b, h⟩ := trim_eq_drop_take s
  rw [h]
  calc ((s.drop a).take b).length ≤ (s.drop a).length := by
        rw [List.length_take]
        exact Nat.min_le_right _ _
    _ ≤ s.length := by
        rw [List.length_drop]
        exact Nat.sub_le _ _

theorem trim_subset (s : Str) : ∀ c ∈ trim s, c ∈ s := by
  intro c hc
  obtain ⟨a, b, h⟩ := trim_eq_drop_take s
  rw [h] at hc
  exact List.drop_subset a s (List.take_subset b (s.drop a) hc)

theorem dropWhile_eq_nil_iff (p : Char → Bool) (l : Str) :
    l.dropWhile p = [] ↔ ∀ c ∈ l, p c = true := by
  induction l with
  | nil => simp
  | cons c t ih =>
    by_cases h : p c
    · simp only [List.dropWhile_cons_of_pos h, ih, List.mem_cons]
      constructor
      · rintro hall x (rfl | hx)
        · exact h
        · exact hall x hx
      · intro hall x hx
        exact hall x (Or.inr hx)
    · simp only [List.dropWhile_cons_of_neg h]
      constructor
      · intro hcontra
        exact absurd hcontra (List.cons_ne_nil c t)
      · intro hall
        exact absurd (hall c (List.mem_cons_self c t)) h

theorem trim_eq_nil_iff (s : Str) : trim s = [] ↔ wsOnly s = true := by
  unfold trim
  rw [List.reverse_eq_nil_iff, dropWhile_eq_nil_iff]
  constructor
  · intro h
    have hdrop : ∀ c ∈ s.dropWhile isWS, isWS c = true := by
      intro c hc
      exact h c (List.mem_reverse.2 hc)
    have htake : ∀ c ∈ s.takeWhile isWS, isWS c = true :=
      takeWhile_all_mem isWS s
    rw [wsOnly, List.all_eq_true]
    intro c hc
    rw [← List.takeWhile_append_dropWhile (p := isWS) (l := s)] at hc
    rcases List.mem_append.1 hc with hx | hx
    · exact htake c hx
    · exact hdrop c hx
  · intro h c hc
    rw [wsOnly, List.all_eq_true] at h
    exact h c (List.dropWhile_subset (l := s) isWS (List.mem_reverse.1 hc))

theorem dropWhile_getLast? (p : Char → Bool) (l : Str) :
    l.dropWhile p ≠ [] → (l.dropWhile p).getLast? = l.getLast? := by
  induction l with
  | nil => intro h; exact absurd rfl h
  | cons c t ih =>
    intro h
    by_cases hc : p c
    · rw [List.dropWhile_cons_of_pos hc] at h ⊢
      rw [ih h]
      have ht : t ≠ [] := by
        intro hnil
        rw [hnil] at h
        exact h rfl
      cases t with
      | nil => exact absurd rfl ht
      | cons y u => rw [List.getLast?_cons_cons]
    · rw [List.dropWhile_cons_of_neg hc]

theorem trim_head?_not_ws (s : Str) :
    ∀ c, (trim s).head? = some c → isWS c = false := by
  intro c hc
  unfold trim at hc
  rw [List.head?_reverse] at hc
  set d := s.dropWhile isWS with hd
  have hne : d.reverse.dropWhile isWS ≠ [] := by
    intro hnil
    rw [hnil] at hc
    simp at hc
  rw [dropWhile_getLast? isWS d.reverse hne, List.getLast?_reverse] at hc
  have := List.head?_dropWhile_not isWS s
  rw [← hd] at this
  rw [hc] at this
  simpa using this

theorem trim_getLast?_not_ws (s : Str) :
    ∀ c, (trim s).getLast? = some c → isWS c = false := by
  intro c hc
  unfold trim at hc
  rw [List.getLast?_reverse] at hc
  have := List.head?_dropWhile_not isWS (s.dropWhile isWS).reverse
  rw [hc] at this
  simpa using this

theorem dropWhile_eq_self_of_head (p : Char → Bool) (l : Str)
    (h : ∀ c, l.head? = some c → p c = false) : l.dropWhile p = l := by
  cases l with
  | nil => rfl
  | cons c t =>
    have : p c = false := h c rfl
    rw [List.dropWhile_cons_of_neg (by simp [this])]

theorem trim_eq_self_of_ends (s : Str)
    (h1 : ∀ c, s.head? = some c → isWS c = false)
    (h2 : ∀ c, s.getLast? = some c → isWS c = false) : trim s = s := by
  unfold trim
  rw [dropWhile_eq_self_of_head isWS s h1]
  rw [dropWhile_eq_self_of_head isWS s.reverse (by
    intro c hc
    rw [List.head?_reverse] at hc
    exact h2 c hc)]
  exact List.reverse_reverse s

theorem trim_idem (s : Str) : trim (trim s) = trim s :=
  trim_eq_self_of_ends (trim s) (trim_head?_not_ws s) (trim_getLast?_not_ws s)

theorem dropWhile_append_of_all (p : Char → Bool) (a l : Str)
    (ha : ∀ c ∈ a, p c = true) : (a ++ l).dropWhile p = l.dropWhile p := by
  induction a with
  | nil => rfl
  | cons c t ih =>
    have hc : p c = true := ha c (List.mem_cons_self c t)
    rw [List.cons_append, List.dropWhile_cons_of_pos hc]
    exact ih (fun x hx => ha x (List.mem_cons_of_mem c hx))

theorem trim_append_wsL (a s : Str) (ha : wsOnly a = true) :
    trim (a ++ s) = trim s := by
  unfold trim
  rw [dropWhile_append_of_all isWS a s (by
    rw [wsOnly, List.all_eq_true] at ha
    exact ha)]

theorem trim_append_wsR (s b : Str) (hb : wsOnly b = true) :
    trim (s ++ b) = trim s := by
  have hball : ∀ c ∈ b, isWS c = true := by
    rw [wsOnly, List.all_eq_true] at hb
    exact hb
  unfold trim
  rw [List.dropWhile_append]
  by_cases hnil : (s.dropWhile isWS).isEmpty
  · rw [if_pos hnil]
    rw [List.isEmpty_iff] at hnil
    rw [hnil]
    have : b.dropWhile isWS = [] := (dropWhile_eq_nil_iff isWS b).2 hball
    rw [this]
  · rw [if_neg hnil]
    rw [List.reverse_append]
    rw [dropWhile_append_of_all isWS b.reverse (s.dropWhile isWS).reverse (by
      intro c hc
      exact hball c (List.mem_reverse.1 hc))]

theorem trim_of_all_not_ws (s : Str) (h : ∀ c ∈ s, isWS c = false) :
    trim s = s := by
  refine trim_eq_self_of_ends s ?_ ?_
  · intro c hc
    exact h c (by
      cases s with
      | nil => simp at hc
      | cons x t =>
        simp only [List.head?_cons, Option.some.injEq] at hc
        rw [← hc]
        exact List.mem_cons_self x t)
  · intro c hc
    exact h c (List.mem_of_getLast?_eq_some hc)

theorem trim_sandwich (s : Str) :
    ∃ a b, wsOnly a = true ∧ wsOnly b = true ∧ s = a ++ trim s ++ b := by
  set d := s.dropWhile isWS with hd
  refine ⟨s.takeWhile isWS, (d.reverse.takeWhile isWS).reverse, ?_, ?_, ?_⟩
  · rw [wsOnly, List.all_eq_true]
    exact takeWhile_all_mem isWS s
  · rw [wsOnly_reverse, wsOnly, List.all_eq_true]
    exact takeWhile_all_mem isWS d.reverse
  · have hs : s = s.takeWhile isWS ++ d := by
      rw [hd, List.takeWhile_append_dropWhile]
    have hdrev : d.reverse = d.reverse.takeWhile isWS ++ d.reverse.dropWhile isWS :=
      (List.takeWhile_append_dropWhile (p := isWS) (l := d.reverse)).symm
    have hdd : d = (d.reverse.dropWhile isWS).reverse ++
        (d.reverse.takeWhile isWS).reverse := by
      have := congrArg List.reverse hdrev
      rw [List.reverse_reverse, List.reverse_append] at this
      exact this
    calc s = s.takeWhile isWS ++ d := hs
      _ = s.takeWhile isWS ++ ((d.reverse.dropWhile isWS).reverse ++
            (d.reverse.takeWhile isWS).reverse) := by rw [← hdd]
      _ = s.takeWhile isWS ++ trim s ++ (d.reverse.takeWhile isWS).reverse := by
            rw [List.append_assoc]; rfl

/-! ### Facts about the search primitives -/

theorem startsWith_length_le (pat s : Str) (h : startsWith pat s = true) :
    pat.length ≤ s.length := by
  induction pat generalizing s with
  | nil => simp
  | cons p ps ih =>
    cases s with
    | nil => simp [startsWith] at h
    | cons c cs =>
      simp only [startsWith, Bool.and_eq_true] at h
      simpa using Nat.succ_le_succ (ih cs h.2)

theorem startsWith_nil_false (p : Char) (ps : Str) :
    startsWith (p :: ps) [] = false := rfl

theorem startsWith_head (p : Char) (ps s : Str)
    (h : startsWith (p :: ps) s = true) : p ∈ s := by
  cases s with
  | nil => simp [startsWith] at h
  | cons c cs =>
    simp only [startsWith, Bool.and_eq_true, decide_eq_true_eq] at h
    rw [h.1]
    exact List.mem_cons_self c cs

theorem startsWith_second (p q : Char) (ps s : Str)
    (h : startsWith (p :: q :: ps) s = true) : q ∈ s := by
  cases s with
  | nil => simp [startsWith] at h
  | cons c cs =>
    simp only [startsWith, Bool.and_eq_true] at h
    exact List.mem_cons_of_mem c (startsWith_head q ps cs h.2)

theorem startsWith_getD (pat s : Str) (h : startsWith pat s = true)
    (i : Nat) (hi : i < pat.length) (d : Char) :
    s.getD i d = pat.getD i d := by
  induction pat generalizing s i with
  | nil => simp at hi
  | cons p ps ih =>
    cases s with
    | nil => simp [startsWith] at h
    | cons c cs =>
      simp only [startsWith, Bool.and_eq_true, decide_eq_true_eq] at h
      cases i with
      | zero => simpa using h.1.symm
      | succ j =>
        simp only [List.getD_cons_succ]
        exact ih cs h.2 j (by simpa using Nat.lt_of_succ_lt_succ hi)

theorem lastMatchBelow_some_iff (pat s : Str) (n p : Nat) :
    lastMatchBelow pat s n = some p ↔
      p < n ∧ startsWith pat (s.drop p) = true ∧
        ∀ q, p < q → q < n → startsWith pat (s.drop q) = false := by
  induction n with
  | zero => simp [lastMatchBelow]
  | succ m ih =>
    unfold lastMatchBelow
    by_cases h : startsWith pat (s.drop m) = true
    · rw [if_pos h]
      constructor
      · intro hp
        injection hp with hp
        subst hp
        exact ⟨Nat.lt_succ_self _, h, fun q hq1 hq2 => ((by omega : False)).elim⟩
      · rintro ⟨hlt, hmatch, hmax⟩
        rcases Nat.lt_succ_iff_lt_or_eq.1 hlt with hlt' | rfl
        · rw [hmax m hlt' (Nat.lt_succ_self m)] at h
          exact Bool.noConfusion h
        · rfl
    · rw [if_neg h]
      rw [ih]
      constructor
      · rintro ⟨hlt, hmatch, hmax⟩
        refine ⟨Nat.lt_succ_of_lt hlt, hmatch, fun q hq1 hq2 => ?_⟩
        rcases Nat.lt_succ_iff_lt_or_eq.1 hq2 with hq' | rfl
        · exact hmax q hq1 hq'
        · simpa using h
      · rintro ⟨hlt, hmatch, hmax⟩
        have hne : p ≠ m := by
          rintro rfl
          exact h hmatch
        refine ⟨by omega, hmatch, fun q hq1 hq2 => hmax q hq1 (Nat.lt_succ_of_lt hq2)⟩

theorem lastMatchBelow_none_iff (pat s : Str) (n : Nat) :
    lastMatchBelow pat s n = none ↔
      ∀ q, q < n → startsWith pat (s.drop q) = false := by
  induction n with
  | zero => simp [lastMatchBelow]
  | succ m ih =>
    unfold lastMatchBelow
    by_cases h : startsWith pat (s.drop m) = true
    · rw [if_pos h]
      constructor
      · intro hcontra
        exact Option.noConfusion hcontra
      · intro hall
        rw [hall m (Nat.lt_succ_self m)] at h
        exact Bool.noConfusion h
    · rw [if_neg h]
      rw [ih]
      constructor
      · intro hall q hq
        rcases Nat.lt_succ_iff_lt_or_eq.1 hq with hq' | rfl
        · exact hall q hq'
        · simpa using h
      · intro hall q hq
        exact hall q (Nat.lt_succ_of_lt hq)

theorem lastSpaceLE_le (r : Str) (n : Nat) : lastSpaceLE r n ≤ n := by
  induction n with
  | zero => simp [lastSpaceLE]
  | succ m ih =>
    unfold lastSpaceLE
    by_cases h : r.getD (m + 1) '\x00' = ' '
    · rw [if_pos h]
    · rw [if_neg h]
      exact Nat.le_succ_of_le ih

theorem lastSpaceLE_zero_iff (r : Str) (n : Nat) :
    lastSpaceLE r n = 0 ↔ ∀ k, 1 ≤ k → k ≤ n → ¬ r.getD k '\x00' = ' ' := by
  induction n with
  | zero => simp [lastSpaceLE]; omega
  | succ m ih =>
    unfold lastSpaceLE
    by_cases h : r.getD (m + 1) '\x00' = ' '
    · rw [if_pos h]
      simp only [Nat.succ_ne_zero, false_iff]
      intro hall
      exact hall (m + 1) (Nat.succ_le_succ (Nat.zero_le m)) (Nat.le_refl _) h
    · rw [if_neg h]
      rw [ih]
      constructor
      · intro hall k h1 h2
        rcases Nat.lt_succ_iff_lt_or_eq.1 (Nat.lt_succ_of_le h2) with hk | rfl
        · exact hall k h1 (by omega)
        · exact h
      · intro hall k h1 h2
        exact hall k h1 (Nat.le_succ_of_le h2)

theorem lastSpaceLE_succ_spec (r : Str) (n k : Nat)
    (h : lastSpaceLE r n = k + 1) :
    k + 1 ≤ n ∧ r.getD (k + 1) '\x00' = ' ' ∧
      ∀ q, k + 1 < q → q ≤ n → ¬ r.getD q '\x00' = ' ' := by
  induction n with
  | zero => simp [lastSpaceLE] at h
  | succ m ih =>
    unfold lastSpaceLE at h
    by_cases hsp : r.getD (m + 1) '\x00' = ' '
    · rw [if_pos hsp] at h
      injection h with h
      subst h
      exact ⟨Nat.le_refl _, hsp, fun q hq1 hq2 => ((by omega : False)).elim⟩
    · rw [if_neg hsp] at h
      obtain ⟨h1, h2, h3⟩ := ih h
      refine ⟨Nat.le_succ_of_le h1, h2, fun q hq1 hq2 => ?_⟩
      rcases Nat.lt_succ_iff_lt_or_eq.1 (Nat.lt_succ_of_le hq2) with hq | rfl
      · exact h3 q hq1 (by omega)
      · exact hsp

theorem optMax2_some_cases (a b : Option Nat) (m : Nat)
    (h : optMax2 a b = some m) : a = some m ∨ b = some m := by
  match a, b with
  | none, b => exact Or.inr h
  | some x, none => exact Or.inl h
  | some x, some y =>
    simp only [optMax2, Option.some.injEq] at h
    rcases Nat.le_total x y with hxy | hxy
    · right
      have h2 : Nat.max x y = y := Nat.max_eq_right hxy
      rw [← h, h2]
    · left
      have h2 : Nat.max x y = x := Nat.max_eq_left hxy
      rw [← h, h2]

theorem optMax2_none_iff (a b : Option Nat) :
    optMax2 a b = none ↔ a = none ∧ b = none := by
  match a, b with
  | none, none => simp [optMax2]
  | none, some y => simp [optMax2]
  | some x, none => simp [optMax2]
  | some x, some y => simp [optMax2]

theorem optMax3_some_cases (a b c : Option Nat) (m : Nat)
    (h : optMax3 a b c = some m) : a = some m ∨ b = some m ∨ c = some m := by
  rcases optMax2_some_cases _ _ _ h with h2 | h2
  · rcases optMax2_some_cases _ _ _ h2 with h3 | h3
    · exact Or.inl h3
    · exact Or.inr (Or.inl h3)
  · exact Or.inr (Or.inr h2)

theorem optMax3_none_iff (a b c : Option Nat) :
    optMax3 a b c = none ↔ a = none ∧ b = none ∧ c = none := by
  unfold optMax3
  rw [optMax2_none_iff, optMax2_none_iff, and_assoc]

theorem lastIndexOf_add_le (pat pre : Str) (p : Nat)
    (h : lastIndexOf pat pre = some p) : p + pat.length ≤ pre.length := by
  obtain ⟨hlt, hmatch, _⟩ := (lastMatchBelow_some_iff pat pre pre.length p).1 h
  have := startsWith_length_le pat (pre.drop p) hmatch
  rw [List.length_drop] at this
  omega

theorem cutPoint_le (m : Nat) (rem : Str) : cutPoint m rem ≤ m := by
  unfold cutPoint
  have hpre : (rem.take m).length ≤ m := by
    rw [List.length_take]
    exact Nat.min_le_left _ _
  cases hpara : lastIndexOf ['\n', '\n'] (rem.take m) with
  | some p =>
    show p + 2 ≤ m
    have := lastIndexOf_add_le _ _ _ hpara
    simp only [List.length_cons, List.length_nil] at this
    omega
  | none =>
    cases hsent : optMax3 (lastIndexOf ['.', ' '] (rem.take m))
        (lastIndexOf ['!', ' '] (rem.take m))
        (lastIndexOf ['?', ' '] (rem.take m)) with
    | some s =>
      show s + 2 ≤ m
      rcases optMax3_some_cases _ _ _ _ hsent with h3 | h3 | h3 <;>
      · have := lastIndexOf_add_le _ _ _ h3
        simp only [List.length_cons, List.length_nil] at this
        omega
    | none =>
      cases hsp : lastSpaceLE rem m with
      | zero => exact Nat.le_refl m
      | succ k =>
        show k + 1 ≤ m
        have := lastSpaceLE_le rem m
        rw [hsp] at this
        exact this

theorem cutPoint_pos (m : Nat) (rem : Str) (hm : 1 ≤ m) :
    1 ≤ cutPoint m rem := by
  unfold cutPoint
  cases lastIndexOf ['\n', '\n'] (rem.take m) with
  | some p => show 1 ≤ p + 2; omega
  | none =>
    cases optMax3 (lastIndexOf ['.', ' '] (rem.take m))
        (lastIndexOf ['!', ' '] (rem.take m))
        (lastIndexOf ['?', ' '] (rem.take m)) with
    | some s => show 1 ≤ s + 2; omega
    | none =>
      cases lastSpaceLE rem m with
      | zero => exact hm
      | succ k => show 1 ≤ k + 1; omega

theorem wordCut_le (m : Nat) (rem : Str) : wordCut m rem ≤ m := by
  unfold wordCut
  cases hsp : lastSpaceLE rem m with
  | zero => exact Nat.le_refl m
  | succ k =>
    have := lastSpaceLE_le rem m
    rw [hsp] at this
    exact this

theorem wordCut_pos (m : Nat) (rem : Str) (hm : 1 ≤ m) : 1 ≤ wordCut m rem := by
  unfold wordCut
  cases lastSpaceLE rem m with
  | zero => exact hm
  | succ k => show 1 ≤ k + 1; omega

/-! ### Framework facts about the splitting loop -/

theorem splitGo_nil (m fuel : Nat) : splitGo m fuel [] = some [] := by
  cases fuel with
  | zero => simp [splitGo]
  | succ f => simp [splitGo]

theorem next_length_lt (m : Nat) (rem : Str) (hm : 1 ≤ m)
    (hlong : m < rem.length) :
    (trim (rem.drop (cutPoint m rem))).length < rem.length := by
  have h1 : (trim (rem.drop (cutPoint m rem))).length ≤
      (rem.drop (cutPoint m rem)).length := trim_length_le _
  rw [List.length_drop] at h1
  have := cutPoint_pos m rem hm
  omega

theorem splitGo_isSome (m : Nat) (hm : 1 ≤ m) :
    ∀ fuel (rem : Str), rem.length ≤ fuel →
      ∃ cs, splitGo m fuel rem = some cs := by
  intro fuel
  induction fuel with
  | zero =>
    intro rem hlen
    refine ⟨[], ?_⟩
    have : rem = [] := List.length_eq_zero.1 (Nat.le_zero.1 hlen)
    rw [this]
    exact splitGo_nil m 0
  | succ f ih =>
    intro rem hlen
    by_cases h0 : rem.length = 0
    · refine ⟨[], ?_⟩
      rw [List.length_eq_zero.1 h0]
      exact splitGo_nil m (f + 1)
    · by_cases hshort : rem.length ≤ m
      · exact ⟨[rem], by simp [splitGo, h0, hshort]⟩
      · have hlong : m < rem.length := Nat.lt_of_not_le hshort
        have hnext : (trim (rem.drop (cutPoint m rem))).length ≤ f := by
          have := next_length_lt m rem hm hlong
          omega
        obtain ⟨cs, hcs⟩ := ih (trim (rem.drop (cutPoint m rem))) hnext
        refine ⟨trim (rem.take (cutPoint m rem)) :: cs, ?_⟩
        simp [splitGo, h0, hshort, hcs]

theorem splitGo_chunk_len (m : Nat) :
    ∀ fuel (rem : Str) cs, splitGo m fuel rem = some cs →
      ∀ c ∈ cs, c.length ≤ m := by
  intro fuel
  induction fuel with
  | zero =>
    intro rem cs h c hc
    simp only [splitGo] at h
    by_cases h0 : rem.length = 0
    · rw [if_pos h0] at h
      injection h with h
      rw [← h] at hc
      simp at hc
    · rw [if_neg h0] at h
      exact Option.noConfusion h
  | succ f ih =>
    intro rem cs h c hc
    simp only [splitGo] at h
    by_cases h0 : rem.length = 0
    · rw [if_pos h0] at h
      injection h with h
      rw [← h] at hc
      simp at hc
    · rw [if_neg h0] at h
      by_cases hshort : rem.length ≤ m
      · rw [if_pos hshort] at h
        injection h with h
        rw [← h] at hc
        simp only [List.mem_singleton] at hc
        rw [hc]
        exact hshort
      · rw [if_neg hshort] at h
        cases hrec : splitGo m f (trim (rem.drop (cutPoint m rem))) with
        | none => rw [hrec] at h; exact Option.noConfusion h
        | some cs' =>
          rw [hrec] at h
          injection h with h
          rw [← h] at hc
          rcases List.mem_cons.1 hc with rfl | hc'
          · calc (trim (rem.take (cutPoint m rem))).length
                ≤ (rem.take (cutPoint m rem)).length := trim_length_le _
              _ ≤ cutPoint m rem := by
                  rw [List.length_take]; exact Nat.min_le_left _ _
              _ ≤ m := cutPoint_le m rem
          · exact ih _ cs' hrec c hc'

theorem splitGo_trimmed (m : Nat) :
    ∀ fuel (rem : Str) cs, splitGo m fuel rem = some cs →
      (trim rem = rem ∨ m < rem.length) → ∀ c ∈ cs, trim c = c := by
  intro fuel
  induction fuel with
  | zero =>
    intro rem cs h _ c hc
    simp only [splitGo] at h
    by_cases h0 : rem.length = 0
    · rw [if_pos h0] at h
      injection h with h
      rw [← h] at hc
      simp at hc
    · rw [if_neg h0] at h
      exact Option.noConfusion h
  | succ f ih =>
    intro rem cs h hpre c hc
    simp only [splitGo] at h
    by_cases h0 : rem.length = 0
    · rw [if_pos h0] at h
      injection h with h
      rw [← h] at hc
      simp at hc
    · rw [if_neg h0] at h
      by_cases hshort : rem.length ≤ m
      · rw [if_pos hshort] at h
        injection h with h
        rw [← h] at hc
        simp only [List.mem_singleton] at hc
        subst hc
        rcases hpre with htrim | hlong
        · exact htrim
        · omega
      · rw [if_neg hshort] at h
        cases hrec : splitGo m f (trim (rem.drop (cutPoint m rem))) with
        | none => rw [hrec] at h; exact Option.noConfusion h
        | some cs' =>
          rw [hrec] at h
          injection h with h
          rw [← h] at hc
          rcases List.mem_cons.1 hc with rfl | hc'
          · exact trim_idem _
          · exact ih _ cs' hrec (Or.inl (trim_idem _)) c hc'

theorem splitGo_ne_nil (m : Nat) (fuel : Nat) (rem : Str) (cs : List Str)
    (h : splitGo m fuel rem = some cs) (hne : 1 ≤ rem.length) : cs ≠ [] := by
  cases fuel with
  | zero =>
    simp only [splitGo] at h
    rw [if_neg (show ¬rem.length = 0 by omega)] at h
    exact Option.noConfusion h
  | succ f =>
    simp only [splitGo] at h
    rw [if_neg (show ¬rem.length = 0 by omega)] at h
    by_cases hshort : rem.length ≤ m
    · rw [if_pos hshort] at h
      injection h with h
      rw [← h]
      exact List.cons_ne_nil rem []
    · rw [if_neg hshort] at h
      cases hrec : splitGo m f (trim (rem.drop (cutPoint m rem))) with
      | none => rw [hrec] at h; exact Option.noConfusion h
      | some cs' =>
        rw [hrec] at h
        injection h with h
        rw [← h]
        exact List.cons_ne_nil _ _

theorem splitGo_count_le (m : Nat) (hm : 1 ≤ m) :
    ∀ fuel (rem : Str) cs, splitGo m fuel rem = some cs →
      cs.length ≤ rem.length := by
  intro fuel
  induction fuel with
  | zero =>
    intro rem cs h
    simp only [splitGo] at h
    by_cases h0 : rem.length = 0
    · rw [if_pos h0] at h
      injection h with h
      rw [← h]
      simp
    · rw [if_neg h0] at h
      exact Option.noConfusion h
  | succ f ih =>
    intro rem cs h
    simp only [splitGo] at h
    by_cases h0 : rem.length = 0
    · rw [if_pos h0] at h
      injection h with h
      rw [← h]
      simp
    · rw [if_neg h0] at h
      by_cases hshort : rem.length ≤ m
      · rw [if_pos hshort] at h
        injection h with h
        rw [← h]
        simp only [List.length_cons, List.length_nil]
        omega
      · rw [if_neg hshort] at h
        cases hrec : splitGo m f (trim (rem.drop (cutPoint m rem))) with
        | none => rw [hrec] at h; exact Option.noConfusion h
        | some cs' =>
          rw [hrec] at h
          injection h with h
          rw [← h]
          simp only [List.length_cons]
          have hrecle := ih _ cs' hrec
          have h1 : (trim (rem.drop (cutPoint m rem))).length ≤
              (rem.drop (cutPoint m rem)).length := trim_length_le _
          rw [List.length_drop] at h1
          have h2 := cutPoint_pos m rem hm
          omega

/-! ### Claim C1: every chunk's length is at most `maxChars` -/

/-- Claim C1: for every text and every `maxChars ≥ 1`, every chunk produced
by `splitTextAtBoundaries` has length at most `maxChars`.  The forced split
cuts at exactly `maxChars`, so even forced-split chunks respect the limit. -/
theorem chunk_length_le_max (text : Str) (maxChars : Nat) (cs : List Str)
    (hm : 1 ≤ maxChars) (h : splitTextAtBoundaries text maxChars = some cs) :
    ∀ c ∈ cs, c.length ≤ maxChars := by
  unfold splitTextAtBoundaries at h
  by_cases hshort : text.length ≤ maxChars
  · rw [if_pos hshort] at h
    injection h with h
    intro c hc
    rw [← h] at hc
    simp only [List.mem_singleton] at hc
    rw [hc]
    exact hshort
  · rw [if_neg hshort] at h
    exact splitGo_chunk_len maxChars text.length text cs h

/-- Witness for C1 at a concrete input and chunk. -/
theorem chunk_length_le_max_witness :
    List.length ['w', 'o', 'r', 'l', 'd'] ≤ 5 :=
  chunk_length_le_max
    ['h', 'e', 'l', 'l', 'o', ' ', 'w', 'o', 'r', 'l', 'd'] 5
    [['h', 'e', 'l', 'l', 'o'], ['w', 'o', 'r', 'l', 'd']]
    (by decide) (by decide) ['w', 'o', 'r', 'l', 'd'] (by decide)

/-! ### Claim C8: the short-circuit case returns the text unmodified -/

/-- Claim C8: whenever `text.length ≤ maxChars` (and `maxChars ≥ 1`),
`splitTextAtBoundaries` returns exactly the one-element sequence `[text]`,
with the text unmodified — no trimming even of surrounding whitespace. -/
theorem short_circuit_exact (text : Str) (maxChars : Nat)
    (hm : 1 ≤ maxChars) (hlen : text.length ≤ maxChars) :
    splitTextAtBoundaries text maxChars = some [text] := by
  unfold splitTextAtBoundaries
  rw [if_pos hlen]

/-- Witness for C8 at a concrete input with surrounding whitespace. -/
theorem short_circuit_exact_witness :
    splitTextAtBoundaries [' ', 'h', 'i', ' '] 9 = some [[' ', 'h', 'i', ' ']] :=
  short_circuit_exact [' ', 'h', 'i', ' '] 9 (by decide) (by decide)

/-! ### Claim C4: splitting the empty string -/

/-- Counterexample to C4 as stated: on the empty string the source takes
the short-circuit branch `if (text.length <= maxChars) return [text];` and
returns the one-element sequence containing the empty string, not the
empty sequence claimed by the spec. -/
theorem split_empty_cex : splitTextAtBoundaries [] 999 ≠ some [] := by
  decide

/-- Amended C4: for every `maxChars`, splitting the empty string returns
the one-element sequence containing the empty string:
`splitTextAtBoundaries "" maxChars = [""]`. -/
theorem split_empty_singleton (maxChars : Nat) :
    splitTextAtBoundaries [] maxChars = some [[]] := by
  unfold splitTextAtBoundaries
  rw [if_pos (by simp)]

/-! ### Claim C5: `maxChars ≤ 0` does not fail fast - the loop diverges -/

/-- Claim C5 (code bug): the source performs no validation of `maxChars`.
With `maxChars = 0` and the non-empty text `"x"`, every iteration computes
`chunkEnd = 0`, the forced-split fallback resets it to `maxChars = 0`, the
emitted chunk is empty, and the remaining text never shrinks: the loop
never terminates (no fuel suffices), instead of raising a configuration
error as the spec requires. -/
theorem split_nonpos_max_diverges :
    (∀ fuel, splitGo 0 fuel ['x'] = none) ∧
      splitTextAtBoundaries ['x'] 0 = none := by
  constructor
  · intro fuel
    induction fuel with
    | zero => decide
    | succ f ih =>
      show splitGo 0 (f + 1) ['x'] = none
      simp only [splitGo]
      rw [if_neg (by decide), if_neg (by decide)]
      have hstep : trim (List.drop (cutPoint 0 ['x']) ['x']) = ['x'] := by decide
      rw [hstep, ih]
  · show splitGo 0 1 ['x'] = none
    simp only [splitGo]
    rw [if_neg (by decide), if_neg (by decide)]
    have hstep : trim (List.drop (cutPoint 0 ['x']) ['x']) = ['x'] := by decide
    rw [hstep]
    decide

/-! ### Claim C3: shape of the output on long inputs -/

/-- Counterexample to C3 as stated: the whitespace text `"\n\n\n\n"` with
`maxChars = 3` is longer than the limit, yet the source returns the single
chunk `""` — only one chunk, and an empty one, contradicting both the
"two or more chunks" and the "each non-empty" parts of the claim (the
paragraph cut lands after the leading `"\n\n"`, whose trim is empty, and
the rest is pure whitespace that trims to nothing). -/
theorem split_long_shape_cex :
    3 < List.length ['\n', '\n', '\n', '\n'] ∧
      splitTextAtBoundaries ['\n', '\n', '\n', '\n'] 3 = some [[]] := by
  constructor
  · decide
  · decide

/-- Amended C3: for `maxChars ≥ 1` and `text.length > maxChars`, the split
always terminates with at least one chunk, each chunk free of leading and
trailing whitespace (equal to its own trim); but the output may consist of
a single chunk, and chunks may be empty, when boundary cuts fall inside
leading or trailing whitespace. -/
theorem split_long_shape_amended (text : Str) (maxChars : Nat)
    (hm : 1 ≤ maxChars) (hlong : maxChars < text.length) :
    ∃ cs, splitTextAtBoundaries text maxChars = some cs ∧ cs ≠ [] ∧
      ∀ c ∈ cs, trim c = c := by
  have hni : ¬ text.length ≤ maxChars := by omega
  obtain ⟨cs, hcs⟩ := splitGo_isSome maxChars hm text.length text (Nat.le_refl _)
  refine ⟨cs, ?_, ?_, ?_⟩
  · unfold splitTextAtBoundaries
    rw [if_neg hni]
    exact hcs
  · exact splitGo_ne_nil maxChars text.length text cs hcs (by omega)
  · exact splitGo_trimmed maxChars text.length text cs hcs (Or.inr hlong)

/-- Witness for the amended C3 at a concrete input. -/
theorem split_long_shape_amended_witness :
    ∃ cs, splitTextAtBoundaries ['a', 'b', ' ', 'c', 'd'] 3 = some cs ∧
      cs ≠ [] ∧ ∀ c ∈ cs, trim c = c :=
  split_long_shape_amended ['a', 'b', ' ', 'c', 'd'] 3 (by decide) (by decide)

/-! ### Claim C9: termination and iteration bounds -/

theorem getD_mem_of_lt (l : Str) (k : Nat) (d : Char) (h : k < l.length) :
    l.getD k d ∈ l := by
  rw [List.getD_eq_getElem?_getD, List.getElem?_eq_getElem h]
  exact List.getElem_mem h

theorem cutPoint_of_noWS (m : Nat) (rem : Str)
    (h : ∀ c ∈ rem, isWS c = false) : cutPoint m rem = m := by
  unfold cutPoint
  have hnl : ∀ c ∈ rem, ¬ c = '\n' := by
    intro c hc heq
    have := h c hc
    rw [heq] at this
    simp [isWS] at this
  have hsp : ∀ c ∈ rem, ¬ c = ' ' := by
    intro c hc heq
    have := h c hc
    rw [heq] at this
    simp [isWS] at this
  have hpara : lastIndexOf ['\n', '\n'] (rem.take m) = none := by
    cases hp : lastIndexOf ['\n', '\n'] (rem.take m) with
    | none => rfl
    | some p =>
      obtain ⟨_, hmatch, _⟩ :=
        (lastMatchBelow_some_iff _ _ _ _).1 hp
      have hmem := startsWith_head '\n' ['\n'] _ hmatch
      have : '\n' ∈ rem :=
        List.take_subset m rem (List.drop_subset p _ hmem)
      exact absurd rfl (hnl '\n' this)
  have hsent : ∀ (a : Char), lastIndexOf [a, ' '] (rem.take m) = none := by
    intro a
    cases hp : lastIndexOf [a, ' '] (rem.take m) with
    | none => rfl
    | some p =>
      obtain ⟨_, hmatch, _⟩ :=
        (lastMatchBelow_some_iff _ _ _ _).1 hp
      have hmem := startsWith_second a ' ' [] _ hmatch
      have : ' ' ∈ rem :=
        List.take_subset m rem (List.drop_subset p _ hmem)
      exact absurd rfl (hsp ' ' this)
  have hscan : lastSpaceLE rem m = 0 := by
    rw [lastSpaceLE_zero_iff]
    intro k _ _ heq
    by_cases hk : k < rem.length
    · exact absurd heq (by
        intro hcontra
        have := getD_mem_of_lt rem k '\x00' hk
        rw [hcontra] at this
        exact absurd rfl (hsp ' ' this))
    · rw [List.getD_eq_getElem?_getD, List.getElem?_eq_none (by omega)] at heq
      exact absurd heq (by decide)
  rw [hpara, hsent '.', hsent '!', hsent '?', hscan]
  simp [optMax3, optMax2]

theorem splitGo_short (m fuel : Nat) (rem : Str) (h1 : 1 ≤ rem.length)
    (h2 : rem.length ≤ m) (h3 : rem.length ≤ fuel) :
    splitGo m fuel rem = some [rem] := by
  cases fuel with
  | zero => omega
  | succ f =>
    simp only [splitGo]
    rw [if_neg (show ¬rem.length = 0 by omega), if_pos h2]

theorem splitGo_noWS_count (m : Nat) (hm : 1 ≤ m) :
    ∀ fuel (rem : Str) cs, (∀ c ∈ rem, isWS c = false) →
      rem.length ≤ fuel → splitGo m fuel rem = some cs → m < rem.length →
      cs.length = (rem.length + m - 1) / m := by
  intro fuel
  induction fuel with
  | zero =>
    intro rem cs _ hlen _ hlong
    omega
  | succ f ih =>
    intro rem cs hws hlen h hlong
    simp only [splitGo] at h
    rw [if_neg (show ¬rem.length = 0 by omega),
      if_neg (show ¬rem.length ≤ m by omega)] at h
    rw [cutPoint_of_noWS m rem hws] at h
    have hdropws : ∀ c ∈ rem.drop m, isWS c = false := by
      intro c hc
      exact hws c (List.drop_subset m rem hc)
    have htrim : trim (rem.drop m) = rem.drop m := trim_of_all_not_ws _ hdropws
    rw [htrim] at h
    have hdlen : (rem.drop m).length = rem.length - m := List.length_drop m rem
    by_cases hlong2 : m < (rem.drop m).length
    · cases hrec : splitGo m f (rem.drop m) with
      | none => rw [hrec] at h; exact Option.noConfusion h
      | some cs' =>
        rw [hrec] at h
        injection h with h
        have hcount := ih (rem.drop m) cs' hdropws (by omega) hrec hlong2
        rw [← h]
        simp only [List.length_cons]
        rw [hcount, hdlen]
        have e1 : rem.length - m + m - 1 = (rem.length - m - 1) + m := by omega
        have e2 : rem.length + m - 1 = (rem.length - 1) + m := by omega
        rw [e1, e2, Nat.add_div_right _ hm, Nat.add_div_right _ hm]
        have e3 : rem.length - 1 = (rem.length - m - 1) + m := by omega
        rw [e3, Nat.add_div_right _ hm]
    · have hrec : splitGo m f (rem.drop m) = some [rem.drop m] :=
        splitGo_short m f (rem.drop m) (by omega) (by omega) (by omega)
      rw [hrec] at h
      injection h with h
      rw [← h]
      simp only [List.length_cons, List.length_nil]
      have e2 : rem.length + m - 1 = (rem.length - 1) + m := by omega
      rw [e2, Nat.add_div_right _ hm]
      have : (rem.length - 1) / m = 1 := by
        apply Nat.div_eq_of_lt_le
        · omega
        · have : (1 + 1) * m = m + m := by omega
          omega
      omega

/-- Counterexample to C9 as stated: on the sentence-heavy 19-character text
`"a. b. c. d. e. f. g"` with `maxChars = 5` the loop performs 6 iterations
(6 chunks), exceeding the claimed bound of `⌈19 / 5⌉ = 4` iterations —
sentence-boundary cuts consume as few as 3 characters per iteration, so the
`⌈text.length / maxChars⌉` bound only holds for the forced-split path. -/
theorem iteration_bound_cex :
    ∃ cs, splitTextAtBoundaries "a. b. c. d. e. f. g".toList 5 = some cs ∧
      cs.length = 6 ∧ ("a. b. c. d. e. f. g".toList.length + 5 - 1) / 5 = 4 := by
  refine ⟨[['a', '.'], ['b', '.'], ['c', '.'], ['d', '.'], ['e', '.'],
    ['f', '.', ' ', 'g']], ?_, ?_, ?_⟩
  · decide
  · decide
  · decide

/-- Amended C9: for `maxChars ≥ 1` the loop always terminates; each
iteration strictly consumes at least one character, so the number of
iterations (= chunks) is at most `max 1 text.length`; and the claimed
`⌈text.length / maxChars⌉` bound holds with equality on the pure
forced-split path (text with no whitespace at all), while natural-boundary
cuts may need strictly more iterations. -/
theorem termination_bound_amended (text : Str) (maxChars : Nat)
    (hm : 1 ≤ maxChars) :
    ∃ cs, splitTextAtBoundaries text maxChars = some cs ∧
      cs.length ≤ Nat.max 1 text.length ∧
      ((∀ c ∈ text, isWS c = false) → maxChars < text.length →
        cs.length = (text.length + maxChars - 1) / maxChars) := by
  by_cases hshort : text.length ≤ maxChars
  · refine ⟨[text], ?_, ?_, ?_⟩
    · unfold splitTextAtBoundaries
      rw [if_pos hshort]
    · simp only [List.length_cons, List.length_nil]
      exact Nat.le_max_left 1 _
    · intro _ hlong
      omega
  · obtain ⟨cs, hcs⟩ :=
      splitGo_isSome maxChars hm text.length text (Nat.le_refl _)
    refine ⟨cs, ?_, ?_, ?_⟩
    · unfold splitTextAtBoundaries
      rw [if_neg hshort]
      exact hcs
    · have := splitGo_count_le maxChars hm text.length text cs hcs
      exact Nat.le_trans this (Nat.le_max_right 1 _)
    · intro hws hlong
      exact splitGo_noWS_count maxChars hm text.length text cs hws
        (Nat.le_refl _) hcs hlong

/-- Witness for the amended C9 at a concrete whitespace-free input. -/
theorem termination_bound_amended_witness :
    ∃ cs, splitTextAtBoundaries ['a', 'b', 'c', 'd', 'e'] 2 = some cs ∧
      cs.length ≤ Nat.max 1 5 ∧
      ((∀ c ∈ ['a', 'b', 'c', 'd', 'e'], isWS c = false) → 2 < 5 →
        cs.length = (5 + 2 - 1) / 2) :=
  termination_bound_amended ['a', 'b', 'c', 'd', 'e'] 2 (by decide)

/-! ### Claim C10: refinement between the two splitters -/

theorem occursIn_false_all (pat s : Str) (h : occursIn pat s = false) :
    ∀ i, startsWith pat (s.drop i) = false := by
  intro i
  unfold occursIn at h
  rw [List.any_eq_false] at h
  by_cases hi : i ≤ s.length
  · exact Bool.not_eq_true _ ▸ (by
      have := h i (List.mem_range.2 (by omega))
      simpa using this)
  · have hnil : s.drop i = [] := List.drop_eq_nil_of_le (by omega)
    rw [hnil]
    cases pat with
    | nil =>
      exfalso
      have := h s.length (List.mem_range.2 (by omega))
      rw [List.drop_eq_nil_of_le (Nat.le_refl _)] at this
      simp [startsWith] at this
    | cons p ps => rfl

theorem startsWith_of_take (pat u : Str) (k : Nat)
    (h : startsWith pat (u.take k) = true) : startsWith pat u = true := by
  induction pat generalizing u k with
  | nil => rfl
  | cons p ps ih =>
    cases u with
    | nil =>
      rw [List.take_nil] at h
      exact absurd h (by simp [startsWith])
    | cons c cs =>
      cases k with
      | zero =>
        rw [List.take_zero] at h
        exact absurd h (by simp [startsWith])
      | succ j =>
        rw [List.take_succ_cons] at h
        simp only [startsWith, Bool.and_eq_true] at h ⊢
        exact ⟨h.1, ih cs j h.2⟩

theorem occursIn_take_false (pat s : Str) (n : Nat)
    (h : occursIn pat s = false) : occursIn pat (s.take n) = false := by
  unfold occursIn
  rw [List.any_eq_false]
  intro i _
  simp only [Bool.not_eq_true]
  rw [List.drop_take]
  by_cases hres : startsWith pat ((s.drop i).take (n - i)) = true
  · have := startsWith_of_take pat (s.drop i) (n - i) hres
    rw [occursIn_false_all pat s h i] at this
    exact Bool.noConfusion this
  · exact Bool.not_eq_true _ ▸ hres

theorem occursIn_drop_false (pat s : Str) (k : Nat)
    (h : occursIn pat s = false) : occursIn pat (s.drop k) = false := by
  unfold occursIn
  rw [List.any_eq_false]
  intro i _
  simp only [Bool.not_eq_true]
  rw [List.drop_drop]
  exact occursIn_false_all pat s h (k + i)

theorem occursIn_trim_false (pat s : Str)
    (h : occursIn pat s = false) : occursIn pat (trim s) = false := by
  obtain ⟨a, b, htrim⟩ := trim_eq_drop_take s
  rw [htrim]
  exact occursIn_take_false pat (s.drop a) b (occursIn_drop_false pat s a h)

theorem lastIndexOf_take_none (pat rem : Str) (m : Nat)
    (h : occursIn pat rem = false) :
    lastIndexOf pat (rem.take m) = none := by
  unfold lastIndexOf
  rw [lastMatchBelow_none_iff]
  intro q _
  have := occursIn_take_false pat rem m h
  exact occursIn_false_all pat (rem.take m) this q

theorem cutPoint_eq_wordCut (m : Nat) (rem : Str)
    (h1 : occursIn ['\n', '\n'] rem = false)
    (h2 : occursIn ['.', ' '] rem = false)
    (h3 : occursIn ['!', ' '] rem = false)
    (h4 : occursIn ['?', ' '] rem = false) :
    cutPoint m rem = wordCut m rem := by
  unfold cutPoint wordCut
  rw [lastIndexOf_take_none _ _ _ h1, lastIndexOf_take_none _ _ _ h2,
    lastIndexOf_take_none _ _ _ h3, lastIndexOf_take_none _ _ _ h4]
  simp [optMax3, optMax2]

theorem splitGoW_eq_splitGo (m : Nat) :
    ∀ fuel (rem : Str),
      occursIn ['\n', '\n'] rem = false → occursIn ['.', ' '] rem = false →
      occursIn ['!', ' '] rem = false → occursIn ['?', ' '] rem = false →
      splitGoW m fuel rem = splitGo m fuel rem := by
  intro fuel
  induction fuel with
  | zero => intro rem _ _ _ _; rfl
  | succ f ih =>
    intro rem h1 h2 h3 h4
    simp only [splitGoW, splitGo]
    by_cases h0 : rem.length = 0
    · rw [if_pos h0, if_pos h0]
    · rw [if_neg h0, if_neg h0]
      by_cases hshort : rem.length ≤ m
      · rw [if_pos hshort, if_pos hshort]
      · rw [if_neg hshort, if_neg hshort]
        rw [cutPoint_eq_wordCut m rem h1 h2 h3 h4]
        have hrec := ih (trim (rem.drop (wordCut m rem)))
          (occursIn_trim_false _ _ (occursIn_drop_false _ _ _ h1))
          (occursIn_trim_false _ _ (occursIn_drop_false _ _ _ h2))
          (occursIn_trim_false _ _ (occursIn_drop_false _ _ _ h3))
          (occursIn_trim_false _ _ (occursIn_drop_false _ _ _ h4))
        rw [hrec]

/-- Claim C10: on any text containing no paragraph break (`"\n\n"`) and no
sentence ending (`". "`, `"! "`, `"? "`), the simple word-boundary splitter
`splitText` of `text_splitter.js` and `splitTextAtBoundaries` of
`openai_fm_automation.js` return identical chunk sequences: the paragraph
and sentence searches find nothing (also on every remaining suffix, since
suffixes of such a text contain no occurrence either), and both loops then
perform the identical space-scan / forced-split step. -/
theorem splitText_refines_boundaries (text : Str) (maxChars : Nat)
    (hm : 1 ≤ maxChars)
    (h1 : occursIn ['\n', '\n'] text = false)
    (h2 : occursIn ['.', ' '] text = false)
    (h3 : occursIn ['!', ' '] text = false)
    (h4 : occursIn ['?', ' '] text = false) :
    splitText text maxChars = splitTextAtBoundaries text maxChars := by
  unfold splitText splitTextAtBoundaries
  by_cases hshort : text.length ≤ maxChars
  · rw [if_pos hshort, if_pos hshort]
  · rw [if_neg hshort, if_neg hshort]
    exact splitGoW_eq_splitGo maxChars text.length text h1 h2 h3 h4

/-- Witness for C10 at a concrete input without boundary patterns. -/
theorem splitText_refines_boundaries_witness :
    splitText ['a', 'b', ' ', 'c', 'd', ' ', 'e', 'f'] 3 =
      splitTextAtBoundaries ['a', 'b', ' ', 'c', 'd', ' ', 'e', 'f'] 3 :=
  splitText_refines_boundaries ['a', 'b', ' ', 'c', 'd', ' ', 'e', 'f'] 3
    (by decide) (by decide) (by decide) (by decide) (by decide)

/-! ### Claim C7: reconstruction of the trimmed input -/

theorem interleave_single (c : Str) (ws : List Str) :
    interleave [c] ws = c := by
  cases ws with
  | nil => rfl
  | cons w ws' => rfl

theorem interleave_cons2 (c c2 : Str) (cs : List Str) (w : Str)
    (ws : List Str) :
    interleave (c :: c2 :: cs) (w :: ws) = c ++ w ++ interleave (c2 :: cs) ws :=
  rfl

theorem splitGo_reconstruct (m : Nat) :
    ∀ fuel (rem : Str) cs, splitGo m fuel rem = some cs →
      1 ≤ rem.length → (trim rem = rem ∨ m < rem.length) →
      ∃ seps, (∀ w ∈ seps, wsOnly w = true) ∧ seps.length + 1 = cs.length ∧
        interleave cs seps = trim rem := by
  intro fuel
  induction fuel with
  | zero =>
    intro rem cs h hne _
    simp only [splitGo] at h
    rw [if_neg (show ¬rem.length = 0 by omega)] at h
    exact Option.noConfusion h
  | succ f ih =>
    intro rem cs h hne hpre
    simp only [splitGo] at h
    rw [if_neg (show ¬rem.length = 0 by omega)] at h
    by_cases hshort : rem.length ≤ m
    · rw [if_pos hshort] at h
      injection h with h
      subst h
      have htrim : trim rem = rem := by
        rcases hpre with htrim | hlong
        · exact htrim
        · omega
      exact ⟨[], by simp, by simp, by rw [interleave_single, htrim]⟩
    · rw [if_neg hshort] at h
      set ce := cutPoint m rem with hce
      cases hrec : splitGo m f (trim (rem.drop ce)) with
      | none => rw [hrec] at h; exact Option.noConfusion h
      | some cs' =>
        rw [hrec] at h
        injection h with h
        subst h
        set c1 := trim (rem.take ce) with hc1
        set rem' := trim (rem.drop ce) with hrem'
        obtain ⟨A, B, hA, hB, hType⟩ := trim_sandwich (rem.take ce)
        obtain ⟨C, D, hC, hD, hDrop⟩ := trim_sandwich (rem.drop ce)
        have hsplit : rem = A ++ c1 ++ B ++ (C ++ rem' ++ D) := by
          conv_lhs => rw [← List.take_append_drop ce rem]
          rw [← hType, ← hDrop]
        by_cases hrnil : rem' = []
        · have hcs' : cs' = [] := by
            rw [hrnil] at hrec
            rw [splitGo_nil] at hrec
            injection hrec with hrec
            exact hrec.symm
          subst hcs'
          refine ⟨[], by simp, by simp, ?_⟩
          rw [interleave_single]
          rw [hsplit, hrnil]
          have hwsall : wsOnly (B ++ (C ++ [] ++ D)) = true := by
            simp [wsOnly_append, hB, hC, hD]
          symm
          calc trim (A ++ c1 ++ B ++ (C ++ [] ++ D))
              = trim (A ++ (c1 ++ (B ++ (C ++ [] ++ D)))) := by
                simp [List.append_assoc]
            _ = trim (c1 ++ (B ++ (C ++ [] ++ D))) := trim_append_wsL _ _ hA
            _ = trim c1 := trim_append_wsR _ _ hwsall
            _ = c1 := trim_idem _
        · have hrne : 1 ≤ rem'.length := List.length_pos.2 hrnil
          obtain ⟨seps', hws', hlen', hint'⟩ :=
            ih rem' cs' hrec hrne (Or.inl (trim_idem _))
          have hint2 : interleave cs' seps' = rem' := by
            rw [hint', trim_idem]
          obtain ⟨c2, cs'', rfl⟩ : ∃ c2 cs'', cs' = c2 :: cs'' := by
            cases cs' with
            | nil => simp at hlen'
            | cons a b => exact ⟨a, b, rfl⟩
          by_cases hc1nil : c1 = []
          · refine ⟨[] :: seps', ?_, ?_, ?_⟩
            · intro w hw
              rcases List.mem_cons.1 hw with rfl | hw'
              · rfl
              · exact hws' w hw'
            · simp only [List.length_cons] at hlen' ⊢
              omega
            · rw [hc1nil, interleave_cons2, hint2]
              simp only [List.nil_append]
              rw [hsplit, hc1nil]
              have hwshead : wsOnly (A ++ [] ++ B ++ C) = true := by
                simp [wsOnly_append, hA, hB, hC]
              symm
              calc trim (A ++ [] ++ B ++ (C ++ rem' ++ D))
                  = trim ((A ++ [] ++ B ++ C) ++ (rem' ++ D)) := by
                    simp [List.append_assoc]
                _ = trim (rem' ++ D) := trim_append_wsL _ _ hwshead
                _ = trim rem' := trim_append_wsR _ _ hD
                _ = rem' := trim_idem _
          · refine ⟨(B ++ C) :: seps', ?_, ?_, ?_⟩
            · intro w hw
              rcases List.mem_cons.1 hw with rfl | hw'
              · rw [wsOnly_append, hB, hC]
                rfl
              · exact hws' w hw'
            · simp only [List.length_cons] at hlen' ⊢
              omega
            · rw [interleave_cons2, hint2]
              rw [hsplit]
              symm
              have hgoal : trim (c1 ++ (B ++ C) ++ rem') =
                  c1 ++ (B ++ C) ++ rem' := by
                apply trim_eq_self_of_ends
                · intro c hc
                  rw [List.append_assoc, List.head?_append] at hc
                  cases hhd : c1.head? with
                  | none =>
                    exact absurd (List.head?_eq_none_iff.1 hhd) hc1nil
                  | some x =>
                    rw [hhd] at hc
                    simp only [Option.or_some, Option.some.injEq] at hc
                    subst hc
                    exact trim_head?_not_ws _ x hhd
                · intro c hc
                  rw [List.getLast?_append] at hc
                  cases hlast : rem'.getLast? with
                  | none =>
                    exact absurd (List.getLast?_eq_none_iff.1 hlast) hrnil
                  | some x =>
                    rw [hlast] at hc
                    simp only [Option.or_some, Option.some.injEq] at hc
                    subst hc
                    exact trim_getLast?_not_ws _ x hlast
              calc trim (A ++ c1 ++ B ++ (C ++ rem' ++ D))
                  = trim (A ++ ((c1 ++ (B ++ C) ++ rem') ++ D)) := by
                    simp [List.append_assoc]
                _ = trim ((c1 ++ (B ++ C) ++ rem') ++ D) :=
                    trim_append_wsL _ _ hA
                _ = trim (c1 ++ (B ++ C) ++ rem') :=
                    trim_append_wsR _ _ hD
                _ = c1 ++ (B ++ C) ++ rem' := hgoal

/-- Counterexample to C7 as stated: for the short input `" a"` (length ≤
`maxChars`) the source returns the single chunk `" a"` unmodified; no cut
happens and no boundary whitespace is consumed, so the join of all chunks
is `" a"`, which differs from the trimmed original `"a"`.  The claimed
reconstruction of the *trimmed* original only holds once the loop actually
cuts, i.e. when `text.length > maxChars`. -/
theorem reconstruct_cex :
    splitTextAtBoundaries [' ', 'a'] 999 = some [[' ', 'a']] ∧
      interleave [[' ', 'a']] [] = [' ', 'a'] ∧
      trim [' ', 'a'] = ['a'] ∧ ([' ', 'a'] : Str) ≠ ['a'] := by
  refine ⟨by decide, by decide, by decide, by decide⟩

/-- Amended C7: for `maxChars ≥ 1` and `text.length > maxChars` (so that
cuts actually occur), there exist whitespace-only separator strings — the
boundary whitespace consumed at each cut — whose reinsertion between the
returned chunks reconstructs exactly the trimmed original text.  For
`text.length ≤ maxChars` the single returned chunk is the original text
itself, unmodified (per the short-circuit of C8). -/
theorem reconstruct_amended (text : Str) (maxChars : Nat)
    (hm : 1 ≤ maxChars) (hlong : maxChars < text.length) :
    ∃ cs seps, splitTextAtBoundaries text maxChars = some cs ∧
      (∀ w ∈ seps, wsOnly w = true) ∧ seps.length + 1 = cs.length ∧
      interleave cs seps = trim text := by
  obtain ⟨cs, hcs⟩ :=
    splitGo_isSome maxChars hm text.length text (Nat.le_refl _)
  obtain ⟨seps, hws, hlen, hint⟩ :=
    splitGo_reconstruct maxChars text.length text cs hcs (by omega)
      (Or.inr hlong)
  refine ⟨cs, seps, ?_, hws, hlen, hint⟩
  unfold splitTextAtBoundaries
  rw [if_neg (show ¬text.length ≤ maxChars by omega)]
  exact hcs

/-- Witness for the amended C7 at a concrete input. -/
theorem reconstruct_amended_witness :
    ∃ cs seps,
      splitTextAtBoundaries ['a', 'b', ' ', ' ', 'c', 'd'] 3 = some cs ∧
      (∀ w ∈ seps, wsOnly w = true) ∧ seps.length + 1 = cs.length ∧
      interleave cs seps = trim ['a', 'b', ' ', ' ', 'c', 'd'] :=
  reconstruct_amended ['a', 'b', ' ', ' ', 'c', 'd'] 3 (by decide) (by decide)

/-! ### Claim C2: boundary-selection priority -/

theorem specLastIn_eq (p : Char) (ps rem : Str) (m : Nat) :
    specLastIn (p :: ps) rem m = lastIndexOf (p :: ps) (rem.take m) := by
  have hL : (rem.take m).length ≤ m := by
    rw [List.length_take]
    exact Nat.min_le_left _ _
  cases h : lastIndexOf (p :: ps) (rem.take m) with
  | some q =>
    obtain ⟨hlt, hmatch, hmax⟩ :=
      (lastMatchBelow_some_iff (p :: ps) (rem.take m) (rem.take m).length q).1 h
    unfold specLastIn
    rw [if_pos (by
      rw [List.any_eq_true]
      exact ⟨q, List.mem_range.2 (by omega), hmatch⟩)]
    congr 1
    rw [Nat.findGreatest_eq_iff]
    refine ⟨by omega, fun _ => hmatch, ?_⟩
    intro n hn1 hn2 hP
    by_cases hnL : n < (rem.take m).length
    · rw [matchAtIn] at hP
      rw [hmax n hn1 hnL] at hP
      exact Bool.noConfusion hP
    · rw [matchAtIn] at hP
      rw [List.drop_eq_nil_of_le (by omega)] at hP
      exact Bool.noConfusion hP
  | none =>
    have hall := (lastMatchBelow_none_iff (p :: ps) (rem.take m)
      (rem.take m).length).1 h
    unfold specLastIn
    rw [if_neg (by
      intro hany
      obtain ⟨i, hi, hP⟩ := List.any_eq_true.1 hany
      rw [matchAtIn] at hP
      by_cases hiL : i < (rem.take m).length
      · rw [hall i hiL] at hP
        exact Bool.noConfusion hP
      · rw [List.drop_eq_nil_of_le (by omega)] at hP
        exact Bool.noConfusion hP)]

theorem optMax2_bound (a b : Option Nat) (M : Nat)
    (h : optMax2 a b = some M) :
    (∀ x, a = some x → x ≤ M) ∧ (∀ x, b = some x → x ≤ M) := by
  match a, b with
  | none, b =>
    have hb : b = some M := h
    refine ⟨fun x hx => Option.noConfusion hx, fun x hx => ?_⟩
    rw [hb] at hx
    injection hx with hx
    omega
  | some y, none =>
    have hy : some y = some M := h
    injection hy with hy
    refine ⟨fun x hx => ?_, fun x hx => Option.noConfusion hx⟩
    injection hx with hx
    omega
  | some y, some z =>
    simp only [optMax2, Option.some.injEq] at h
    have hy : y ≤ M := by rw [← h]; exact Nat.le_max_left y z
    have hz : z ≤ M := by rw [← h]; exact Nat.le_max_right y z
    refine ⟨fun x hx => ?_, fun x hx => ?_⟩
    · injection hx with hx
      omega
    · injection hx with hx
      omega

theorem optMax3_bound (a b c : Option Nat) (M : Nat)
    (h : optMax3 a b c = some M) :
    (∀ x, a = some x → x ≤ M) ∧ (∀ x, b = some x → x ≤ M) ∧
      (∀ x, c = some x → x ≤ M) := by
  unfold optMax3 at h
  obtain ⟨hab, hc⟩ := optMax2_bound _ _ _ h
  cases hab2 : optMax2 a b with
  | none =>
    rw [optMax2_none_iff] at hab2
    refine ⟨?_, ?_, hc⟩
    · intro x hx; rw [hab2.1] at hx; exact Option.noConfusion hx
    · intro x hx; rw [hab2.2] at hx; exact Option.noConfusion hx
  | some M2 =>
    have hM2 : M2 ≤ M := hab M2 hab2
    obtain ⟨ha, hb⟩ := optMax2_bound _ _ _ hab2
    exact ⟨fun x hx => Nat.le_trans (ha x hx) hM2,
      fun x hx => Nat.le_trans (hb x hx) hM2, hc⟩

theorem lastIndexOf_none_all (p : Char) (ps pre : Str)
    (h : lastIndexOf (p :: ps) pre = none) :
    ∀ q, startsWith (p :: ps) (pre.drop q) = false := by
  intro q
  have hall := (lastMatchBelow_none_iff (p :: ps) pre pre.length).1 h
  by_cases hq : q < pre.length
  · exact hall q hq
  · rw [List.drop_eq_nil_of_le (by omega)]
    rfl

theorem lastIndexOf_some_above (p : Char) (ps pre : Str) (v : Nat)
    (h : lastIndexOf (p :: ps) pre = some v) :
    ∀ q, v < q → startsWith (p :: ps) (pre.drop q) = false := by
  intro q hq
  obtain ⟨hlt, _, hmax⟩ :=
    (lastMatchBelow_some_iff (p :: ps) pre pre.length v).1 h
  by_cases hqL : q < pre.length
  · exact hmax q hq hqL
  · rw [List.drop_eq_nil_of_le (by omega)]
    rfl

theorem specLastSentence_eq (rem : Str) (m : Nat) :
    specLastSentence rem m =
      optMax3 (lastIndexOf ['.', ' '] (rem.take m))
        (lastIndexOf ['!', ' '] (rem.take m))
        (lastIndexOf ['?', ' '] (rem.take m)) := by
  have hL : (rem.take m).length ≤ m := by
    rw [List.length_take]
    exact Nat.min_le_left _ _
  cases hopt : optMax3 (lastIndexOf ['.', ' '] (rem.take m))
      (lastIndexOf ['!', ' '] (rem.take m))
      (lastIndexOf ['?', ' '] (rem.take m)) with
  | none =>
    obtain ⟨h1, h2, h3⟩ := (optMax3_none_iff _ _ _).1 hopt
    unfold specLastSentence
    rw [if_neg (by
      intro hany
      obtain ⟨i, _, hP⟩ := List.any_eq_true.1 hany
      unfold sentenceAt matchAtIn at hP
      rw [lastIndexOf_none_all '.' [' '] _ h1 i,
        lastIndexOf_none_all '!' [' '] _ h2 i,
        lastIndexOf_none_all '?' [' '] _ h3 i] at hP
      exact Bool.noConfusion hP)]
  | some M =>
    obtain ⟨hb1, hb2, hb3⟩ := optMax3_bound _ _ _ _ hopt
    have habove : ∀ n, M < n → sentenceAt rem m n = false := by
      intro n hn
      unfold sentenceAt matchAtIn
      have hone : ∀ (a : Char),
          (∀ x, lastIndexOf [a, ' '] (rem.take m) = some x → x ≤ M) →
          startsWith [a, ' '] ((rem.take m).drop n) = false := by
        intro a hbound
        cases hcase : lastIndexOf [a, ' '] (rem.take m) with
        | none => exact lastIndexOf_none_all a [' '] _ hcase n
        | some v =>
          have hv := hbound v hcase
          exact lastIndexOf_some_above a [' '] _ v hcase n (by omega)
      rw [hone '.' hb1, hone '!' hb2, hone '?' hb3]
      rfl
    have hMmatch : sentenceAt rem m M = true := by
      unfold sentenceAt matchAtIn
      rcases optMax3_some_cases _ _ _ _ hopt with hc | hc | hc <;>
      · obtain ⟨_, hmatch, _⟩ :=
          (lastMatchBelow_some_iff _ _ _ _).1 hc
        simp [hmatch]
    have hMlt : M < (rem.take m).length := by
      rcases optMax3_some_cases _ _ _ _ hopt with hc | hc | hc <;>
      · obtain ⟨hlt, _, _⟩ := (lastMatchBelow_some_iff _ _ _ _).1 hc
        omega
    unfold specLastSentence
    rw [if_pos (by
      rw [List.any_eq_true]
      exact ⟨M, List.mem_range.2 (by omega), hMmatch⟩)]
    congr 1
    rw [Nat.findGreatest_eq_iff]
    refine ⟨by omega, fun _ => hMmatch, ?_⟩
    intro n hn1 _ hP
    rw [habove n hn1] at hP
    exact Bool.noConfusion hP

theorem specSpaceScanFrom_eq (rem : Str) (m : Nat) :
    specSpaceScanFrom rem m 1 =
      match lastSpaceLE rem m with
      | 0 => none
      | k + 1 => some (k + 1) := by
  cases hs : lastSpaceLE rem m with
  | zero =>
    have hall := (lastSpaceLE_zero_iff rem m).1 hs
    unfold specSpaceScanFrom
    rw [if_neg (by
      intro hany
      obtain ⟨k, hk, hP⟩ := List.any_eq_true.1 hany
      rw [List.mem_range] at hk
      rw [Bool.and_eq_true, decide_eq_true_eq, decide_eq_true_eq] at hP
      exact hall k hP.1 (by omega) hP.2)]
  | succ k =>
    obtain ⟨hle, hsp, hmax⟩ := lastSpaceLE_succ_spec rem m k hs
    unfold specSpaceScanFrom
    rw [if_pos (by
      rw [List.any_eq_true]
      refine ⟨k + 1, List.mem_range.2 (by omega), ?_⟩
      rw [Bool.and_eq_true, decide_eq_true_eq, decide_eq_true_eq]
      exact ⟨by omega, hsp⟩)]
    congr 1
    rw [Nat.findGreatest_eq_iff]
    refine ⟨hle, fun _ => by
      rw [Bool.and_eq_true, decide_eq_true_eq, decide_eq_true_eq]
      exact ⟨by omega, hsp⟩, ?_⟩
    intro n hn1 hn2 hP
    rw [Bool.and_eq_true, decide_eq_true_eq, decide_eq_true_eq] at hP
    exact hmax n (by omega) hn2 hP.2

theorem cutPoint_eq_specCutAmended (m : Nat) (rem : Str) :
    cutPoint m rem = specCutAmended m rem := by
  unfold specCutAmended specCutWith cutPoint
  rw [specLastIn_eq, specLastSentence_eq, specSpaceScanFrom_eq]
  cases lastIndexOf ['\n', '\n'] (rem.take m) with
  | some p => rfl
  | none =>
    cases optMax3 (lastIndexOf ['.', ' '] (rem.take m))
        (lastIndexOf ['!', ' '] (rem.take m))
        (lastIndexOf ['?', ' '] (rem.take m)) with
    | some s => rfl
    | none =>
      cases lastSpaceLE rem m with
      | zero => rfl
      | succ k => rfl

theorem splitGoCuts_inv (m : Nat) :
    ∀ fuel (rem0 r : Str) (ce : Nat),
      (r, ce) ∈ splitGoCuts m fuel rem0 →
      m < r.length ∧ ce = cutPoint m r ∧ (r = rem0 ∨ trim r = r) ∧
        ∀ c ∈ r, c ∈ rem0 := by
  intro fuel
  induction fuel with
  | zero =>
    intro rem0 r ce h
    simp [splitGoCuts] at h
  | succ f ih =>
    intro rem0 r ce h
    simp only [splitGoCuts] at h
    by_cases h0 : rem0.length = 0
    · rw [if_pos h0] at h
      simp at h
    · rw [if_neg h0] at h
      by_cases hshort : rem0.length ≤ m
      · rw [if_pos hshort] at h
        simp at h
      · rw [if_neg hshort] at h
        rcases List.mem_cons.1 h with heq | hmem
        · injection heq with e1 e2
          subst e1
          subst e2
          exact ⟨by omega, rfl, Or.inl rfl, fun c hc => hc⟩
        · obtain ⟨hlen, hce, hdisj, hsub⟩ := ih _ r ce hmem
          refine ⟨hlen, hce, Or.inr ?_, ?_⟩
          · rcases hdisj with heq | htrim
            · rw [heq]
              exact trim_idem _
            · exact htrim
          · intro c hc
            have h1 := hsub c hc
            have h2 := trim_subset (rem0.drop (cutPoint m rem0)) c h1
            exact List.drop_subset _ rem0 h2

/-- Counterexample to C2 as stated: on the remaining text `" aaaaa"` with
`maxChars = 3` there is no paragraph break and no sentence end, and the
only space lies at position 0; the claimed rule ("otherwise at the nearest
space scanning backward from position maxChars") selects the space at
position 0, but the source's scan guard `chunkEnd > 0` never examines
position 0, treats the scan as failed and force-splits at
`chunkEnd = maxChars = 3`. -/
theorem cut_priority_literal_cex :
    splitCuts [' ', 'a', 'a', 'a', 'a', 'a'] 3 =
        [([' ', 'a', 'a', 'a', 'a', 'a'], 3)] ∧
      specCutLiteral 3 [' ', 'a', 'a', 'a', 'a', 'a'] = 0 ∧ (3 : Nat) ≠ 0 := by
  refine ⟨by decide, by decide, by decide⟩

/-- Amended C2: at each cut performed by `splitTextAtBoundaries`, the cut
position follows the strict priority order — last `"\n\n"` within the
first `maxChars` characters (cut after it), else the latest of `". "`,
`"! "`, `"? "` there (cut after it), else the nearest space scanning
backward from position `maxChars` *down to position 1* (a space at
position 0 is never accepted), else the forced split at exactly
`maxChars`.  In particular a paragraph break always beats a later
sentence end. -/
theorem cut_priority_amended (text : Str) (maxChars : Nat)
    (hm : 1 ≤ maxChars) :
    ∀ p ∈ splitCuts text maxChars, p.2 = specCutAmended maxChars p.1 := by
  intro p hp
  unfold splitCuts at hp
  by_cases hshort : text.length ≤ maxChars
  · rw [if_pos hshort] at hp
    simp at hp
  · rw [if_neg hshort] at hp
    obtain ⟨_, hce, _, _⟩ :=
      splitGoCuts_inv maxChars text.length text p.1 p.2 (by
        cases p with
        | mk a b => exact hp)
    rw [hce]
    exact cutPoint_eq_specCutAmended maxChars p.1

/-- Witness for the amended C2 at a concrete input: the first cut of
`"a. bcdef"` with `maxChars = 4` happens at position 3, right after the
sentence ending `". "`, as the amended rule prescribes. -/
theorem cut_priority_amended_witness :
    (3 : Nat) = specCutAmended 4 ['a', '.', ' ', 'b', 'c', 'd', 'e', 'f'] :=
  cut_priority_amended ['a', '.', ' ', 'b', 'c', 'd', 'e', 'f'] 4 (by decide)
    (['a', '.', ' ', 'b', 'c', 'd', 'e', 'f'], 3) (by decide)

/-! ### Claim C6: no chunk boundary inside a short whitespace-free run -/

theorem getD_eq_getElem_of_lt (l : Str) (i : Nat) (d : Char)
    (h : i < l.length) : l.getD i d = l[i] := by
  rw [List.getD_eq_getElem?_getD, List.getElem?_eq_getElem h]
  rfl

theorem getD_take_eq (r : Str) (m i : Nat) (d : Char) (h : i < m) :
    (r.take m).getD i d = r.getD i d := by
  by_cases hi : i < r.length
  · have h1 : i < (r.take m).length := by
      rw [List.length_take]
      omega
    rw [getD_eq_getElem_of_lt _ _ _ h1, getD_eq_getElem_of_lt _ _ _ hi]
    exact List.getElem_take r
  · have h1 : ¬ i < (r.take m).length := by
      rw [List.length_take]
      omega
    rw [List.getD_eq_getElem?_getD, List.getElem?_eq_none (by omega),
      List.getD_eq_getElem?_getD, List.getElem?_eq_none (by omega)]

theorem takeWhile_eq_self_of_all (p : Char → Bool) (l : Str)
    (h : ∀ c ∈ l, p c = true) : l.takeWhile p = l := by
  induction l with
  | nil => rfl
  | cons c t ih =>
    rw [List.takeWhile_cons_of_pos (h c (List.mem_cons_self c t))]
    rw [ih (fun x hx => h x (List.mem_cons_of_mem c hx))]

theorem runAround_forced (m : Nat) (r : Str) (hm : 1 ≤ m)
    (hlong : m < r.length)
    (hall : ∀ c ∈ r.take m, isWS c = false)
    (hm2 : isWS (r.getD m ' ') = false) :
    m < runAround r m := by
  unfold runAround
  have hrev : ∀ c ∈ (r.take m).reverse, (fun c => !isWS c) c = true := by
    intro c hc
    simp only [Bool.not_eq_true']
    exact hall c (List.mem_reverse.1 hc)
  rw [takeWhile_eq_self_of_all _ _ hrev]
  have hlen1 : (r.take m).reverse.length = m := by
    rw [List.length_reverse, List.length_take]
    omega
  have hdrop : r.drop m = r[m] :: r.drop (m + 1) :=
    List.drop_eq_getElem_cons hlong
  have hgm : isWS r[m] = false := by
    rw [← getD_eq_getElem_of_lt r m ' ' hlong]
    exact hm2
  rw [hdrop, List.takeWhile_cons_of_pos (by simp [hgm])]
  simp only [List.length_cons]
  omega

theorem head_not_ws_of_take (r : Str) (i : Nat) (hi : i < r.length)
    (hhead : ∀ c, r.head? = some c → isWS c = false)
    (honly : ∀ c ∈ r, isWS c = true → c = ' ')
    (hscan : ∀ k, 1 ≤ k → k ≤ i → ¬ r.getD k '\x00' = ' ') :
    ∀ j, j ≤ i → isWS (r.getD j '\x00') = false := by
  intro j hj
  cases j with
  | zero =>
    have h0 : r.getD 0 '\x00' = r[0] := getD_eq_getElem_of_lt r 0 '\x00' (by omega)
    rw [h0]
    apply hhead
    rw [List.head?_eq_getElem?, List.getElem?_eq_getElem (by omega)]
  | succ n =>
    have hlt : n + 1 < r.length := by omega
    have hmem : r.getD (n + 1) '\x00' ∈ r := getD_mem_of_lt r (n + 1) '\x00' hlt
    by_cases hws : isWS (r.getD (n + 1) '\x00') = true
    · exact absurd (honly _ hmem hws) (hscan (n + 1) (by omega) hj)
    · exact Bool.not_eq_true _ ▸ hws

theorem mem_of_head?_eq (l : Str) (c : Char) (h : l.head? = some c) :
    c ∈ l := by
  rw [List.head?_eq_getElem?] at h
  obtain ⟨hlt, hc⟩ := List.getElem?_eq_some_iff.1 h
  rw [← hc]
  exact List.getElem_mem hlt

theorem cut_run_long (m : Nat) (r : Str) (hm : 1 ≤ m) (hlong : m < r.length)
    (honly : ∀ c ∈ r, isWS c = true → c = ' ')
    (hhead : ∀ c, r.head? = some c → isWS c = false)
    (h1 : ¬ r.getD (cutPoint m r - 1) ' ' = ' ')
    (h2 : ¬ r.getD (cutPoint m r) ' ' = ' ') :
    m < runAround r (cutPoint m r) := by
  cases hpara : lastIndexOf ['\n', '\n'] (r.take m) with
  | some p =>
    exfalso
    obtain ⟨_, hmatch, _⟩ := (lastMatchBelow_some_iff _ _ _ _).1 hpara
    have hmem : '\n' ∈ r :=
      List.take_subset m r
        (List.drop_subset p _ (startsWith_head '\n' ['\n'] _ hmatch))
    have := honly '\n' hmem (by decide)
    exact absurd this (by decide)
  | none =>
    cases hsent : optMax3 (lastIndexOf ['.', ' '] (r.take m))
        (lastIndexOf ['!', ' '] (r.take m))
        (lastIndexOf ['?', ' '] (r.take m)) with
    | some s =>
      exfalso
      have hcp : cutPoint m r = s + 2 := by
        unfold cutPoint
        rw [hpara, hsent]
      have hgen : ∀ (a : Char),
          lastIndexOf [a, ' '] (r.take m) = some s → r.getD (s + 1) ' ' = ' ' := by
        intro a hc
        obtain ⟨hlt, hmatch, _⟩ := (lastMatchBelow_some_iff _ _ _ _).1 hc
        have hlen2 := startsWith_length_le _ _ hmatch
        rw [List.length_drop] at hlen2
        simp only [List.length_cons, List.length_nil] at hlen2
        have hs1 : s + 1 < (r.take m).length := by omega
        have hchar := startsWith_getD _ _ hmatch 1
          (by rw [List.length_cons, List.length_cons, List.length_nil]; omega) ' '
        have hdropEq : ((r.take m).drop s).getD 1 ' ' = (r.take m).getD (s + 1) ' ' := by
          rw [getD_eq_getElem_of_lt _ _ _ (by rw [List.length_drop]; omega),
            getD_eq_getElem_of_lt _ _ _ hs1]
          exact List.getElem_drop (r.take m)
        have hmL : s + 1 < m := by
          have : (r.take m).length ≤ m := by
            rw [List.length_take]
            exact Nat.min_le_left _ _
          omega
        rw [hdropEq, getD_take_eq r m (s + 1) ' ' hmL] at hchar
        exact hchar
      apply h1
      rw [hcp]
      have he : s + 2 - 1 = s + 1 := by omega
      rw [he]
      rcases optMax3_some_cases _ _ _ _ hsent with hc | hc | hc
      · exact hgen '.' hc
      · exact hgen '!' hc
      · exact hgen '?' hc
    | none =>
      cases hsp : lastSpaceLE r m with
      | succ k =>
        exfalso
        have hcp : cutPoint m r = k + 1 := by
          unfold cutPoint
          rw [hpara, hsent, hsp]
        obtain ⟨hle, hspace, _⟩ := lastSpaceLE_succ_spec r m k hsp
        apply h2
        rw [hcp]
        rw [getD_eq_getElem_of_lt r (k + 1) ' ' (by omega)]
        rw [getD_eq_getElem_of_lt r (k + 1) '\x00' (by omega)] at hspace
        exact hspace
      | zero =>
        have hcp : cutPoint m r = m := by
          unfold cutPoint
          rw [hpara, hsent, hsp]
        rw [hcp]
        have hscan := (lastSpaceLE_zero_iff r m).1 hsp
        have hall : ∀ j, j ≤ m - 1 → isWS (r.getD j '\x00') = false :=
          head_not_ws_of_take r (m - 1) (by omega) hhead honly
            (fun k hk1 hk2 => hscan k hk1 (by omega))
        have htake : ∀ c ∈ r.take m, isWS c = false := by
          intro c hc
          obtain ⟨i, hi, hci⟩ := List.mem_iff_getElem.1 hc
          have hiL : i < m := by
            rw [List.length_take] at hi
            omega
          have hieq : (r.take m).getD i '\x00' = c := by
            rw [getD_eq_getElem_of_lt _ _ _ hi, hci]
          rw [getD_take_eq r m i '\x00' hiL] at hieq
          rw [← hieq]
          exact hall i (by omega)
        have hm2 : isWS (r.getD m ' ') = false := by
          have hEq : r.getD m ' ' = r[m] := getD_eq_getElem_of_lt r m ' ' hlong
          have hEq2 : r.getD m '\x00' = r[m] :=
            getD_eq_getElem_of_lt r m '\x00' hlong
          have hne := hscan m (by omega) (Nat.le_refl m)
          rw [hEq2] at hne
          rw [hEq]
          by_cases hws : isWS r[m] = true
          · exact absurd (honly r[m] (List.getElem_mem hlong) hws) hne
          · exact Bool.not_eq_true _ ▸ hws
        exact runAround_forced m r hm hlong htake hm2

/-- Counterexample to C6 as stated: in `"aaa\tbbb\tccc\tddd"` with
`maxChars = 5` the run `"bbb"` is whitespace-free (tabs and newlines count
as whitespace per the claim) and has length `3 ≤ 5`, yet the first cut is
forced at position 5, strictly inside that run — the source's scan only
recognises the ASCII space `' '`, so the tab-separated short runs are
split.  The surrounding whitespace-free run of the boundary has length 3
(`runAround = 3 ≤ 5`), and both boundary neighbours are non-whitespace. -/
theorem word_split_ws_cex :
    splitTextAtBoundaries
        ['a', 'a', 'a', '\t', 'b', 'b', 'b', '\t', 'c', 'c', 'c', '\t',
          'd', 'd', 'd'] 5 =
      some [['a', 'a', 'a', '\t', 'b'], ['b', 'b', '\t', 'c', 'c'],
        ['c', '\t', 'd', 'd', 'd']] ∧
    splitCuts
        ['a', 'a', 'a', '\t', 'b', 'b', 'b', '\t', 'c', 'c', 'c', '\t',
          'd', 'd', 'd'] 5 =
      [(['a', 'a', 'a', '\t', 'b', 'b', 'b', '\t', 'c', 'c', 'c', '\t',
          'd', 'd', 'd'], 5),
        (['b', 'b', '\t', 'c', 'c', 'c', '\t', 'd', 'd', 'd'], 5)] ∧
    isWS (['a', 'a', 'a', '\t', 'b', 'b', 'b', '\t', 'c', 'c', 'c', '\t',
      'd', 'd', 'd'].getD 4 ' ') = false ∧
    isWS (['a', 'a', 'a', '\t', 'b', 'b', 'b', '\t', 'c', 'c', 'c', '\t',
      'd', 'd', 'd'].getD 5 ' ') = false ∧
    runAround ['a', 'a', 'a', '\t', 'b', 'b', 'b', '\t', 'c', 'c', 'c',
      '\t', 'd', 'd', 'd'] 5 = 3 ∧ 3 ≤ 5 := by
  refine ⟨by decide, by decide, by decide, by decide, by decide, by decide⟩

/-- Amended C6: provided the only whitespace occurring in the text is the
ASCII space (no tabs, newlines, …) and the text does not begin with a
space (the scan guard `chunkEnd > 0` never accepts a space at position 0),
no cut of `splitTextAtBoundaries` falls strictly inside a whitespace-free
run of length at most `maxChars`: whenever both neighbours of a cut are
non-whitespace, the surrounding run is longer than `maxChars`. -/
theorem word_split_amended (text : Str) (maxChars : Nat) (hm : 1 ≤ maxChars)
    (honly : ∀ c ∈ text, isWS c = true → c = ' ')
    (hhead : text.head? ≠ some ' ') :
    ∀ p ∈ splitCuts text maxChars,
      ¬ p.1.getD (p.2 - 1) ' ' = ' ' → ¬ p.1.getD p.2 ' ' = ' ' →
      maxChars < runAround p.1 p.2 := by
  intro p hp hA hB
  unfold splitCuts at hp
  by_cases hshort : text.length ≤ maxChars
  · rw [if_pos hshort] at hp
    simp at hp
  · rw [if_neg hshort] at hp
    obtain ⟨hlen, hce, hdisj, hsub⟩ :=
      splitGoCuts_inv maxChars text.length text p.1 p.2 (by
        cases p with
        | mk a b => exact hp)
    have honly' : ∀ c ∈ p.1, isWS c = true → c = ' ' := by
      intro c hc
      exact honly c (hsub c hc)
    have hhead' : ∀ c, p.1.head? = some c → isWS c = false := by
      intro c hc
      rcases hdisj with heq | htrim
      · rw [heq] at hc
        by_cases hws : isWS c = true
        · have := honly c (mem_of_head?_eq text c hc) hws
          rw [this] at hc
          exact absurd hc hhead
        · exact Bool.not_eq_true _ ▸ hws
      · apply trim_head?_not_ws p.1 c
        rw [htrim]
        exact hc
    rw [hce] at hA hB ⊢
    exact cut_run_long maxChars p.1 hm hlen honly' hhead' hA hB

/-- Witness for the amended C6 at a concrete input: the first cut of
`"aaaa bb"` with `maxChars = 3` is forced at position 3, strictly inside
the run `"aaaa"`, and that run is indeed longer than `maxChars`. -/
theorem word_split_amended_witness :
    3 < runAround ['a', 'a', 'a', 'a', ' ', 'b', 'b'] 3 :=
  word_split_amended ['a', 'a', 'a', 'a', ' ', 'b', 'b'] 3 (by decide)
    (by decide) (by decide) (['a', 'a', 'a', 'a', ' ', 'b', 'b'], 3)
    (by decide) (by decide) (by decide)
